import Mathlib

/-!
# Verification of the Google News URL decoder (Go package `gnewsdecoder`)

Shallow embedding of the decoding/resolution engine found in `decoder.go` and
`google_decoder.go`.  Go strings are modelled as `List Char` (Go strings are
byte sequences; every byte that occurs here is representable as a code point
below 256, and `string(decodedBytes)` in Go is the identity on those bytes, so
a list of sub-256 code points is a faithful model).  Network calls are
abstracted as oracle parameters: a pure function standing for "what the
aggregator answered"; everything around the oracle is translated directly
from the source.

`url.Parse` (Go standard library) is modelled by its result: a `GoURL` record
carrying the host and the (query-free) path, exactly the two fields the
package reads.  Inputs whose parse fails take the early-return branch of each
decoder, producing a fixed non-empty message; those branches carry no further
logic, so the theorems quantify over parsed URLs.

`base64.URLEncoding.DecodeString` is modelled by `b64Decode`: Go's decoder
skips every `\r` and `\n` wherever it occurs (also inside padding), then
decodes in padded quanta — the remaining length must be a multiple of 4, `=`
only as final padding, and (as in Go's default non-strict mode) trailing
padding bits are not checked.  This is modelled as `b64DecodeRaw` (the
quantum decoder) applied after `stripCRLF`.  Newline-carrying tokens are
reachable: `url.Parse` percent-decodes the path, so `/articles/AA%0A` yields
the token `"AA\n"`.
-/

namespace GNews

/-- Go strings, as lists of code points < 256 (byte strings). -/
abbrev GoStr := List Char

/-- `DecodeResult` from `decoder.go`: status plus decoded URL or error message. -/
structure DecodeResult where
  status : Bool
  decodedURL : GoStr
  message : GoStr
  deriving DecidableEq, Repr

/-- The zero value of the Go struct `DecodeResult` (all fields empty/false). -/
def zeroResult : DecodeResult := ⟨false, [], []⟩

/-- Result of a successful `url.Parse`: the two fields the package reads. -/
structure GoURL where
  host : GoStr
  path : GoStr
  deriving DecidableEq, Repr

instance : Inhabited GoURL := ⟨⟨[], []⟩⟩

/-- Value of one base64url character (alphabet `A-Z a-z 0-9 - _`). -/
def b64Val (c : Char) : Option Nat :=
  if 'A' ≤ c ∧ c ≤ 'Z' then some (c.toNat - 'A'.toNat)
  else if 'a' ≤ c ∧ c ≤ 'z' then some (c.toNat - 'a'.toNat + 26)
  else if '0' ≤ c ∧ c ≤ '9' then some (c.toNat - '0'.toNat + 52)
  else if c = '-' then some 62
  else if c = '_' then some 63
  else none

/-- One decoded byte, as a `Char` code point below 256. -/
def byteChar (n : Nat) : Char := Char.ofNat (n % 256)

/-- The quantum pass of `base64.URLEncoding.DecodeString`, after newline
skipping: padded URL-safe base64, input length a multiple of 4, `=` only as
the final one- or two-char padding; trailing padding bits are not checked
(Go's default mode). -/
def b64DecodeRaw : GoStr → Option GoStr
  | [] => some []
  | a :: b :: c :: d :: rest =>
    match b64Val a, b64Val b with
    | some va, some vb =>
      if c = '=' then
        if d = '=' ∧ rest = [] then some [byteChar (va * 4 + vb / 16)] else none
      else
        match b64Val c with
        | some vc =>
          if d = '=' then
            if rest = [] then
              some [byteChar (va * 4 + vb / 16), byteChar (vb % 16 * 16 + vc / 4)]
            else none
          else
            match b64Val d, b64DecodeRaw rest with
            | some vd, some tail =>
              some (byteChar (va * 4 + vb / 16) :: byteChar (vb % 16 * 16 + vc / 4) ::
                    byteChar (vc % 4 * 64 + vd) :: tail)
            | _, _ => none
        | none => none
    | _, _ => none
  | _ => none

/-- The `\r`/`\n` skipping Go's base64 decoder performs on every input byte,
including inside and after padding (`decodeQuantum` decrements its index on
these two bytes wherever they occur). -/
def stripCRLF (s : GoStr) : GoStr :=
  s.filter fun c => c != '\r' && c != '\n'

/-- `base64.URLEncoding.DecodeString`: skip every CR/LF, then decode the
remaining text in padded quanta. -/
def b64Decode (s : GoStr) : Option GoStr :=
  b64DecodeRaw (stripCRLF s)

/-- The fixed 3-byte prefix `0x08 0x13 0x22` stripped by the decoders. -/
def binPrefix : GoStr := [Char.ofNat 0x08, Char.ofNat 0x13, Char.ofNat 0x22]

/-- The fixed 3-byte suffix `0xD2 0x01 0x00` stripped by the decoders. -/
def binSuffix : GoStr := [Char.ofNat 0xD2, Char.ofNat 0x01, Char.ofNat 0x00]

/-- The opaque-reference marker `AU_yqL`. -/
def auMarker : GoStr := "AU_yqL".toList

/-- Strip `binPrefix` if present (the `strings.HasPrefix` block). -/
def stripPrefix (s : GoStr) : GoStr :=
  if binPrefix.isPrefixOf s then s.drop binPrefix.length else s

/-- Strip `binSuffix` if present (the `strings.HasSuffix` block). -/
def stripSuffix (s : GoStr) : GoStr :=
  if binSuffix.isSuffixOf s then s.take (s.length - binSuffix.length) else s

/-- The "Extract URL based on length byte" block, written with total
`take`/`drop` (the guards make every Go slice in it in-bounds). -/
def extractPayload (s : GoStr) : GoStr :=
  match s with
  | [] => s
  | c :: _ =>
    let length := c.toNat
    if length ≥ 0x80 ∧ s.length > length + 1 then (s.drop 2).take (length - 1)
    else if s.length > length + 1 then (s.drop 1).take length
    else s

/-- Go slice expression `s[lo:hi]`: `none` models the bounds-check panic. -/
def goSlice (s : GoStr) (lo hi : Nat) : Option GoStr :=
  if lo ≤ hi ∧ hi ≤ s.length then some ((s.drop lo).take (hi - lo)) else none

/-- `extractPayload` with Go's slice bounds checks made explicit; a `none`
would be a runtime panic. -/
def extractPayloadChecked (s : GoStr) : Option GoStr :=
  match s with
  | [] => some s
  | c :: _ =>
    let length := c.toNat
    if length ≥ 0x80 ∧ s.length > length + 1 then goSlice s 2 (length + 1)
    else if s.length > length + 1 then goSlice s 1 (length + 1)
    else some s

/-- The binary token decoder shared by `DecoderV1`–`V4`: append `"=="`, base64
decode, strip prefix and suffix, extract the length-prefixed payload.
`none` is the base64 failure branch. -/
def decodeBinaryToken (tok : GoStr) : Option GoStr :=
  match b64Decode (tok ++ "==".toList) with
  | none => none
  | some bs => some (extractPayload (stripSuffix (stripPrefix bs)))

/-- `splitString` from `google_decoder.go` (it splits on every occurrence of
the separator's first byte, the same semantics as `strings.Split` with a
one-character separator, used by `DecoderV3`/`V4`/`newDecoderV1WithClient`). -/
def goSplitChar (sep : Char) : GoStr → List GoStr
  | [] => [[]]
  | c :: r =>
    if c = sep then [] :: goSplitChar sep r
    else
      match goSplitChar sep r with
      | [] => [[c]]
      | h :: t => (c :: h) :: t

/-- `splitPath` from `google_decoder.go`: split on `/`, drop empty segments. -/
def splitPath (p : GoStr) : List GoStr :=
  (goSplitChar '/' p).filter (fun x => x ≠ [])

/-- The aggregator host checked by every extraction path. -/
def newsHost : GoStr := "news.google.com".toList

def articlesSeg : GoStr := "articles".toList

def readSeg : GoStr := "read".toList

/-- The host/path check and token extraction shared by `DecoderV2`–`V4`
(`path := strings.Split(parsedURL.Path, "/")`, empty segments kept):
`some token` when `Host == "news.google.com" && len(path) > 1 &&
(path[len-2] == "articles" || path[len-2] == "read")`. -/
def extractTokenRaw (u : GoURL) : Option GoStr :=
  let path := goSplitChar '/' u.path
  if u.host = newsHost ∧ path.length > 1 ∧
      (path.getD (path.length - 2) [] = articlesSeg ∨
       path.getD (path.length - 2) [] = readSeg) then
    some (path.getD (path.length - 1) [])
  else none

/-- The extraction step at the start of `newDecoderV1WithClient`
(`decoder.go` lines 576–591); same raw split, errors split in two stages. -/
def extractTokenV1 (u : GoURL) : Except GoStr GoStr :=
  let path := goSplitChar '/' u.path
  if u.host ≠ newsHost ∨ path.length ≤ 1 then
    .error "invalid Google News URL format".toList
  else
    let pathType := path.getD (path.length - 2) []
    if pathType ≠ articlesSeg ∧ pathType ≠ readSeg then
      .error "invalid Google News URL format".toList
    else .ok (path.getD (path.length - 1) [])

/-- `GetBase64Str` from `google_decoder.go`: same checks as `extractTokenV1`
but over `splitPath` (empty segments removed). -/
def GetBase64Str (u : GoURL) : DecodeResult :=
  let path := splitPath u.path
  if u.host ≠ newsHost ∨ path.length ≤ 1 then
    ⟨false, [], "invalid Google News URL format".toList⟩
  else
    let pathType := path.getD (path.length - 2) []
    if pathType ≠ articlesSeg ∧ pathType ≠ readSeg then
      ⟨false, [], "invalid Google News URL format".toList⟩
    else ⟨true, path.getD (path.length - 1) [], []⟩

/-- `DecoderV3` from `decoder.go`.  `fetch` is the oracle standing for
`fetchDecodedBatchExecute` (its `(string, error)` return).  The Go `%v` error
details are not reproduced inside messages; each message keeps its non-empty
literal part. -/
def DecoderV3 (fetch : GoStr → Except GoStr GoStr) (u : GoURL) : DecodeResult :=
  match extractTokenRaw u with
  | none => ⟨false, [], "invalid Google News URL".toList⟩
  | some tok =>
    match decodeBinaryToken tok with
    | none => ⟨false, [], "failed to decode base64".toList⟩
    | some ds =>
      if auMarker.isPrefixOf ds then
        match fetch tok with
        | .error e => ⟨false, [], "batch execute failed: ".toList ++ e⟩
        | .ok dec => ⟨true, dec, []⟩
      else ⟨true, ds, []⟩

/-- The per-URL first pass of `DecoderV4` (lines 329–379): either a final
`DecodeResult`, or the token to submit to the batched RPC call. -/
def classify (u : GoURL) : DecodeResult ⊕ GoStr :=
  match extractTokenRaw u with
  | none => .inl ⟨false, [], "invalid Google News URL".toList⟩
  | some tok =>
    match decodeBinaryToken tok with
    | none => .inl ⟨false, [], "failed to decode base64".toList⟩
    | some ds => if auMarker.isPrefixOf ds then .inr tok else .inl ⟨true, ds, []⟩

/-- The `(index, token)` pairs `DecoderV4` appends to `batchIDs` (in input
order) together with the index each one was seen at. -/
def pendings : Nat → List GoURL → List (Nat × GoStr)
  | _, [] => []
  | i, u :: us =>
    match classify u with
    | .inr tok => (i, tok) :: pendings (i + 1) us
    | .inl _ => pendings (i + 1) us

/-- Final state of the Go map `idToIndex` looked up at `t`: the map is built
by successive assignments `idToIndex[tok] = i` in input order, so the last
assignment wins; a missing key reads the zero value `0`. -/
def lookAux (acc : Nat) (t : GoStr) : List (Nat × GoStr) → Nat
  | [] => acc
  | p :: ps => lookAux (if p.2 = t then p.1 else acc) t ps

def lookLast (ps : List (Nat × GoStr)) (t : GoStr) : Nat := lookAux 0 t ps

/-- `for j, u := range l` with the loop index made explicit. -/
def enumL : Nat → List α → List (Nat × α)
  | _, [] => []
  | i, a :: as => (i, a) :: enumL (i + 1) as

/-- The result `DecoderV4` writes for a pending index on batch failure. -/
def failBatch (e : GoStr) : DecodeResult :=
  ⟨false, [], "batch execute failed: ".toList ++ e⟩

/-- `DecoderV4` from `decoder.go`.  `oracle` stands for
`fetchDecodedBatchExecuteMultiple` (error ⇔ `err != nil` there; `.ok`
carries `BatchDecodeResult.URLs`).  First pass fills `results` (pending
indices keep the slice's zero value) and collects `batchIDs`/`idToIndex`;
then the batch loops of lines 381–397. -/
def DecoderV4 (oracle : List GoStr → Except GoStr (List GoStr))
    (urls : List GoURL) : List DecodeResult :=
  let rs := urls.map fun u => match classify u with | .inl r => r | .inr _ => zeroResult
  let ps := pendings 0 urls
  let ids := ps.map Prod.snd
  if ps.length = 0 then rs
  else
    match oracle ids with
    | .error e =>
      ids.foldl (fun acc tok => acc.set (lookLast ps tok) (failBatch e)) rs
    | .ok us =>
      (enumL 0 us).foldl
        (fun acc ju =>
          if ju.1 < ids.length then
            acc.set (lookLast ps (ids.getD ju.1 [])) ⟨true, ju.2, []⟩
          else acc) rs

/-- What one input URL yields on its own when the batched RPC resolves each
token `t` to `resolve t` (used to state per-index correspondence). -/
def singleV4 (resolve : GoStr → GoStr) (u : GoURL) : DecodeResult :=
  match classify u with
  | .inl r => r
  | .inr tok => ⟨true, resolve tok, []⟩

/-- The collection loop of `DecodeURLs`/`DecodeURLsWithContext`: indexed
results arriving in some completion order are written into the pre-sized
result slice at their own index. -/
def applyResults (init : List DecodeResult) (l : List (Nat × DecodeResult)) :
    List DecodeResult :=
  l.foldl (fun acc p => acc.set p.1 p.2) init

/-- `ConcurrentDecoder.DecodeURLs`: each task computes `dec` of its own URL
(`cd.decoder.Decode`, abstracted as `dec`); `order` is the completion order in
which `resultChan` delivers the indexed results. -/
def DecodeURLs (order : List (Nat × DecodeResult)) (urls : List GoURL) :
    List DecodeResult :=
  applyResults (List.replicate urls.length zeroResult) order

/-- The indexed results the `DecodeURLs` goroutines send, one per input. -/
def taskResults (dec : GoURL → DecodeResult) (urls : List GoURL) :
    List (Nat × DecodeResult) :=
  (enumL 0 urls).map fun p => (p.1, dec p.2)

/-- The result a task of `DecodeURLsWithContext` sends when `ctx.Done()` wins
the `select` before the semaphore send. -/
def cancelledResult : DecodeResult := ⟨false, [], "context cancelled".toList⟩

/-- The indexed results the `DecodeURLsWithContext` goroutines send:
`cancelled i = true` models task `i` seeing `ctx.Done()` before acquiring its
permit (it sends `cancelledResult` without invoking the decoder); otherwise
the task runs `dec` to completion. -/
def taskResultsCtx (dec : GoURL → DecodeResult) (cancelled : Nat → Bool)
    (urls : List GoURL) : List (Nat × DecodeResult) :=
  (enumL 0 urls).map fun p => (p.1, if cancelled p.1 then cancelledResult else dec p.2)

/-- `DecodeURLsWithContext`: slots are pre-filled with the `"not processed"`
default, then overwritten from the completion order. -/
def DecodeURLsWithContext (order : List (Nat × DecodeResult)) (urls : List GoURL) :
    List DecodeResult :=
  applyResults (List.replicate urls.length ⟨false, [], "not processed".toList⟩) order

/-- The escaped marker `[\"garturlres\",\"` scanned for by
`fetchDecodedBatchExecute(Multiple)`. -/
def headerM : GoStr := "[\\\"garturlres\\\",\\\"".toList

/-- The terminator `\",` that ends each recovered URL. -/
def footerM : GoStr := "\\\",".toList

/-- `strings.SplitN(l, pat, 2)` when it finds `pat`: the text before the
first occurrence and the text after it; `none` when `pat` does not occur
(`strings.Contains` is `(splitOnFirst pat l).isSome`). -/
def splitOnFirst (pat : GoStr) : GoStr → Option (GoStr × GoStr)
  | [] => if pat.isPrefixOf ([] : GoStr) then some ([], []) else none
  | c :: r =>
    if pat.isPrefixOf (c :: r) then some ([], (c :: r).drop pat.length)
    else
      match splitOnFirst pat r with
      | none => none
      | some (a, b) => some (c :: a, b)

theorem splitOnFirst_eq_append {pat : GoStr} :
    ∀ {l a b : GoStr}, splitOnFirst pat l = some (a, b) → l = a ++ pat ++ b := by
  intro l
  induction l with
  | nil =>
    intro a b h
    rw [splitOnFirst] at h
    by_cases hp : pat.isPrefixOf ([] : GoStr)
    · have hpat : pat = [] := by
        have := List.isPrefixOf_iff_prefix.mp hp
        simpa using this.length_le
      rw [if_pos hp] at h
      simp only [Option.some.injEq, Prod.mk.injEq] at h
      obtain ⟨h1, h2⟩ := h
      subst h1; subst h2
      simp [hpat]
    · rw [if_neg hp] at h
      exact absurd h (by simp)
  | cons c r ih =>
    intro a b h
    rw [splitOnFirst] at h
    by_cases hp : pat.isPrefixOf (c :: r)
    · obtain ⟨t, ht⟩ := List.isPrefixOf_iff_prefix.mp hp
      rw [if_pos hp] at h
      simp only [Option.some.injEq, Prod.mk.injEq] at h
      obtain ⟨h1, h2⟩ := h
      subst h1; subst h2
      rw [← ht, List.nil_append, List.drop_left]
    · rw [if_neg hp] at h
      cases hr : splitOnFirst pat r with
      | none => rw [hr] at h; exact absurd h (by simp)
      | some p =>
        obtain ⟨a', b'⟩ := p
        rw [hr] at h
        simp only [Option.some.injEq, Prod.mk.injEq] at h
        obtain ⟨h1, h2⟩ := h
        subst h1; subst h2
        rw [ih hr]
        simp

/-- The scanning loop of `fetchDecodedBatchExecuteMultiple` (lines 302–315):
while the marker occurs, take the text after its first occurrence, stop if no
terminator follows, otherwise collect the quoted value and continue on the
tail. -/
def extractUrls (text : GoStr) : List GoStr :=
  match h1 : splitOnFirst headerM text with
  | none => []
  | some (_, start) =>
    match h2 : splitOnFirst footerM start with
    | none => []
    | some (u, rest) => u :: extractUrls rest
termination_by text.length
decreasing_by
  have e1 := splitOnFirst_eq_append h1
  have e2 := splitOnFirst_eq_append h2
  have l1 := congrArg List.length e1
  have l2 := congrArg List.length e2
  simp only [List.length_append] at l1 l2
  have hh : 0 < headerM.length := by decide
  have hf : 0 < footerM.length := by decide
  omega

/-- A response body containing the given `(junk, url)` pairs in order, each
url introduced by the marker and closed by the terminator, with trailing
`tail` (the reverse of the layout `extractUrls` scans). -/
def assemble : List (GoStr × GoStr) → GoStr → GoStr
  | [], tail => tail
  | (j, u) :: rest, tail => j ++ (headerM ++ (u ++ (footerM ++ assemble rest tail)))

/-- Inverse of the base64url alphabet used by `b64Decode`. -/
def b64Char (n : Nat) : Char :=
  if n < 26 then Char.ofNat ('A'.toNat + n)
  else if n < 52 then Char.ofNat ('a'.toNat + (n - 26))
  else if n < 62 then Char.ofNat ('0'.toNat + (n - 52))
  else if n = 62 then '-'
  else '_'

/-- Unpadded base64url encoding of a byte string: the construction the
round-trip property builds tokens with (tokens are "URL-safe base64,
possibly missing padding"). -/
def b64EncodeRaw : GoStr → GoStr
  | [] => []
  | [x] => [b64Char (x.toNat / 4), b64Char (x.toNat % 4 * 16)]
  | [x, y] => [b64Char (x.toNat / 4), b64Char (x.toNat % 4 * 16 + y.toNat / 16),
               b64Char (y.toNat % 16 * 4)]
  | x :: y :: z :: rest =>
    b64Char (x.toNat / 4) :: b64Char (x.toNat % 4 * 16 + y.toNat / 16) ::
    b64Char (y.toNat % 16 * 4 + z.toNat / 64) :: b64Char (z.toNat % 64) ::
    b64EncodeRaw rest

/-! ## Helper lemmas: indexed writes into a pre-sized result slice -/

theorem length_applyResults (l : List (Nat × DecodeResult)) :
    ∀ init : List DecodeResult, (applyResults init l).length = init.length := by
  induction l with
  | nil => intro init; rfl
  | cons p t ih =>
    intro init
    show (applyResults (init.set p.1 p.2) t).length = _
    rw [ih]
    exact List.length_set ..

theorem applyResults_getElem?_not_mem (l : List (Nat × DecodeResult)) :
    ∀ (init : List DecodeResult) (i : Nat), i ∉ l.map Prod.fst →
      (applyResults init l)[i]? = init[i]? := by
  induction l with
  | nil => intro init i _; rfl
  | cons p t ih =>
    intro init i hi
    simp only [List.map_cons, List.mem_cons] at hi
    push_neg at hi
    show (applyResults (init.set p.1 p.2) t)[i]? = _
    rw [ih _ _ hi.2, List.getElem?_set]
    simp [Ne.symm hi.1]

theorem applyResults_getElem?_mem (l : List (Nat × DecodeResult)) :
    ∀ (init : List DecodeResult) (i : Nat) (v : DecodeResult),
      (l.map Prod.fst).Nodup → (i, v) ∈ l → i < init.length →
      (applyResults init l)[i]? = some v := by
  induction l with
  | nil => intro _ _ _ _ hm; cases hm
  | cons p t ih =>
    intro init i v hnd hm hlen
    simp only [List.map_cons, List.nodup_cons] at hnd
    rcases List.mem_cons.mp hm with heq | ht
    · cases heq
      show (applyResults (init.set i v) t)[i]? = some v
      have hnot : i ∉ t.map Prod.fst := hnd.1
      rw [applyResults_getElem?_not_mem t _ _ hnot, List.getElem?_set]
      simp [hlen]
    · have hif : i ∈ t.map Prod.fst := List.mem_map.mpr ⟨(i, v), ht, rfl⟩
      have hne : p.1 ≠ i := fun he => hnd.1 (he ▸ hif)
      show (applyResults (init.set p.1 p.2) t)[i]? = some v
      exact ih _ _ _ hnd.2 ht (by rw [List.length_set]; exact hlen)

/-! ## Helper lemmas: `enumL` -/

theorem enumL_map {α β : Type} (f : α → β) :
    ∀ (k : Nat) (l : List α),
      enumL k (l.map f) = (enumL k l).map fun p => (p.1, f p.2) := by
  intro k l
  induction l generalizing k with
  | nil => rfl
  | cons a t ih => simp [enumL, ih]

theorem enumL_map_snd {α β : Type} (g : α → β) :
    ∀ (k : Nat) (l : List α), (enumL k l).map (fun p => g p.2) = l.map g := by
  intro k l
  induction l generalizing k with
  | nil => rfl
  | cons a t ih => simp [enumL, ih]

theorem enumL_map_fst {α : Type} :
    ∀ (k : Nat) (l : List α), (enumL k l).map Prod.fst = List.range' k l.length := by
  intro k l
  induction l generalizing k with
  | nil => rfl
  | cons a t ih => simp [enumL, List.range'_succ, ih]

theorem enumL_fst_nodup {α : Type} (k : Nat) (l : List α) :
    ((enumL k l).map Prod.fst).Nodup := by
  rw [enumL_map_fst]
  exact List.nodup_range' k l.length 1 Nat.one_pos

theorem mem_enumL {α : Type} :
    ∀ (l : List α) (k j : Nat) (a : α),
      (j, a) ∈ enumL k l → k ≤ j ∧ j - k < l.length ∧ l[j - k]? = some a := by
  intro l
  induction l with
  | nil => intro k j a hm; cases hm
  | cons x t ih =>
    intro k j a hm
    rcases List.mem_cons.mp hm with heq | ht
    · obtain ⟨h1, h2⟩ := Prod.mk.injEq .. ▸ heq
      injection heq with h1 h2
      subst h1; subst h2
      simp
    · obtain ⟨hk, hlt, hget⟩ := ih (k + 1) j a ht
      refine ⟨by omega, by simp; omega, ?_⟩
      have : j - k = (j - (k + 1)) + 1 := by omega
      rw [this]
      simpa using hget

theorem enumL_mem_of_getElem? {α : Type} :
    ∀ (l : List α) (k i : Nat) (a : α),
      l[i]? = some a → (k + i, a) ∈ enumL k l := by
  intro l
  induction l with
  | nil => intro k i a h; simp at h
  | cons x t ih =>
    intro k i a h
    cases i with
    | zero => simp at h; simp [enumL, h]
    | succ i' =>
      simp only [List.getElem?_cons_succ] at h
      have := ih (k + 1) i' a h
      simp only [enumL, List.mem_cons]
      right
      have harith : k + (i' + 1) = (k + 1) + i' := by omega
      rw [harith]
      exact this

/-! ## Helper lemmas: `pendings` and the `idToIndex` map -/

theorem mem_pendings_of_classify :
    ∀ (urls : List GoURL) (k i : Nat) (u : GoURL) (t : GoStr),
      urls[i]? = some u → classify u = .inr t → (k + i, t) ∈ pendings k urls := by
  intro urls
  induction urls with
  | nil => intro k i u t h _; simp at h
  | cons x us ih =>
    intro k i u t hget hcl
    cases i with
    | zero =>
      simp only [List.getElem?_cons_zero, Option.some.injEq] at hget
      subst hget
      simp [pendings, hcl]
    | succ i' =>
      simp only [List.getElem?_cons_succ] at hget
      have hmem := ih (k + 1) i' u t hget hcl
      have harith : k + (i' + 1) = (k + 1) + i' := by omega
      rw [harith]
      cases hx : classify x with
      | inl r => simpa [pendings, hx] using hmem
      | inr t' => simp [pendings, hx]; right; exact hmem

theorem pendings_mem_spec :
    ∀ (urls : List GoURL) (k j : Nat) (t : GoStr),
      (j, t) ∈ pendings k urls →
      k ≤ j ∧ j - k < urls.length ∧
        ∃ u, urls[j - k]? = some u ∧ classify u = .inr t := by
  intro urls
  induction urls with
  | nil => intro k j t h; simp [pendings] at h
  | cons x us ih =>
    intro k j t hmem
    cases hx : classify x with
    | inr t' =>
      rw [pendings, hx] at hmem
      rcases List.mem_cons.mp hmem with heq | htl
      · injection heq with h1 h2
        subst h1; subst h2
        exact ⟨le_refl _, by simp, x, by simp, hx⟩
      · obtain ⟨hk, hlt, u, hget, hcl⟩ := ih (k + 1) j t htl
        refine ⟨by omega, by simp; omega, u, ?_, hcl⟩
        have : j - k = (j - (k + 1)) + 1 := by omega
        rw [this]
        simpa using hget
    | inl r =>
      rw [pendings, hx] at hmem
      obtain ⟨hk, hlt, u, hget, hcl⟩ := ih (k + 1) j t hmem
      refine ⟨by omega, by simp; omega, u, ?_, hcl⟩
      have : j - k = (j - (k + 1)) + 1 := by omega
      rw [this]
      simpa using hget

theorem pendings_fst_ge (urls : List GoURL) (k j : Nat) (t : GoStr)
    (h : (j, t) ∈ pendings k urls) : k ≤ j :=
  (pendings_mem_spec urls k j t h).1

theorem pendings_fst_nodup :
    ∀ (urls : List GoURL) (k : Nat), ((pendings k urls).map Prod.fst).Nodup := by
  intro urls
  induction urls with
  | nil => intro k; simp [pendings]
  | cons x us ih =>
    intro k
    cases hx : classify x with
    | inl r => rw [pendings, hx]; exact ih (k + 1)
    | inr t =>
      rw [pendings, hx]
      simp only [List.map_cons, List.nodup_cons]
      refine ⟨?_, ih (k + 1)⟩
      intro hmem
      obtain ⟨⟨j, t'⟩, hm, he⟩ := List.mem_map.mp hmem
      have hge := pendings_fst_ge us (k + 1) j t' hm
      simp only at he
      omega

theorem lookAux_not_mem :
    ∀ (ps : List (Nat × GoStr)) (acc : Nat) (t : GoStr),
      t ∉ ps.map Prod.snd → lookAux acc t ps = acc := by
  intro ps
  induction ps with
  | nil => intro acc t _; rfl
  | cons p rest ih =>
    intro acc t hnm
    simp only [List.map_cons, List.mem_cons] at hnm
    push_neg at hnm
    show lookAux (if p.2 = t then p.1 else acc) t rest = acc
    rw [if_neg fun he => hnm.1 he.symm]
    exact ih acc t hnm.2

theorem lookLast_eq (ps : List (Nat × GoStr)) (hnd : (ps.map Prod.snd).Nodup)
    (j : Nat) (t : GoStr) (hm : (j, t) ∈ ps) : lookLast ps t = j := by
  suffices h : ∀ acc, lookAux acc t ps = j from h 0
  induction ps with
  | nil => cases hm
  | cons p rest ih =>
    intro acc
    simp only [List.map_cons, List.nodup_cons] at hnd
    rcases List.mem_cons.mp hm with heq | htl
    · cases heq
      show lookAux (if t = t then j else acc) t rest = j
      rw [if_pos rfl]
      exact lookAux_not_mem rest j t hnd.1
    · have hts : p.2 ≠ t := by
        intro he
        exact hnd.1 (he ▸ List.mem_map.mpr ⟨(j, t), htl, rfl⟩)
      show lookAux (if p.2 = t then p.1 else acc) t rest = j
      rw [if_neg hts]
      exact ih hnd.2 htl acc

/-! ## Helper lemmas: a generic fold-with-write congruence -/

theorem foldl_snd_only {α β γ : Type} (f : γ → β) (body : α → β → α) :
    ∀ (l : List γ) (k : Nat) (init : α),
      (enumL k (l.map f)).foldl (fun acc p => body acc p.2) init
        = l.foldl (fun acc q => body acc (f q)) init := by
  intro l
  induction l with
  | nil => intro k init; rfl
  | cons a t ih => intro k init; exact ih (k + 1) (body init (f a))

theorem foldl_congr_mem {α β : Type} :
    ∀ (l : List α) (f g : β → α → β) (init : β),
      (∀ a ∈ l, ∀ acc, f acc a = g acc a) → l.foldl f init = l.foldl g init := by
  intro l
  induction l with
  | nil => intro f g init _; rfl
  | cons x t ih =>
    intro f g init h
    show List.foldl f (f init x) t = List.foldl g (g init x) t
    rw [h x (by simp)]
    exact ih f g _ fun a ha acc => h a (by simp [ha]) acc

/-! ## Helper lemmas: the two batch-fill loops of `DecoderV4` -/

theorem classify_not_inr_of_pendings_nil (urls : List GoURL)
    (h : pendings 0 urls = []) (u : GoURL) (hu : u ∈ urls) (t : GoStr) :
    classify u ≠ .inr t := by
  intro hcl
  obtain ⟨i, hi⟩ := List.getElem?_of_mem hu
  have := mem_pendings_of_classify urls 0 i u t hi hcl
  rw [h] at this
  cases this

/-- Writing `v tok` at the recorded index of every pending pair turns the
first-pass slice into the pointwise result map. -/
theorem applyResults_over_pendings (urls : List GoURL) (v : GoStr → DecodeResult) :
    applyResults
      (urls.map fun u => match classify u with | .inl r => r | .inr _ => zeroResult)
      ((pendings 0 urls).map fun p => (p.1, v p.2))
    = urls.map fun u => match classify u with | .inl r => r | .inr t => v t := by
  apply List.ext_getElem?
  intro i
  by_cases hi : i < urls.length
  · have hu : urls[i]? = some urls[i] := List.getElem?_eq_getElem hi
    cases hcl : classify urls[i] with
    | inr t =>
      have hm : (i, t) ∈ pendings 0 urls := by
        simpa using mem_pendings_of_classify urls 0 i urls[i] t hu hcl
      have hmm : (i, v t) ∈ (pendings 0 urls).map (fun p => (p.1, v p.2)) :=
        List.mem_map.mpr ⟨(i, t), hm, rfl⟩
      have hnd : ((((pendings 0 urls)).map (fun p => (p.1, v p.2))).map Prod.fst).Nodup := by
        rw [List.map_map]
        simpa [Function.comp] using pendings_fst_nodup urls 0
      rw [applyResults_getElem?_mem _ _ _ _ hnd hmm (by simpa using hi)]
      rw [List.getElem?_map, hu]
      simp [hcl]
    | inl r =>
      have hnm : i ∉ (((pendings 0 urls)).map (fun p => (p.1, v p.2))).map Prod.fst := by
        intro hmem
        rw [List.map_map] at hmem
        obtain ⟨⟨j, t⟩, hm, he⟩ := List.mem_map.mp hmem
        simp only [Function.comp] at he
        obtain ⟨-, -, u', hu', hcl'⟩ := pendings_mem_spec urls 0 j t hm
        simp only [Nat.sub_zero] at hu'
        rw [he, hu] at hu'
        injection hu' with hu'
        rw [← hu', hcl] at hcl'
        cases hcl'
      rw [applyResults_getElem?_not_mem _ _ _ hnm]
      rw [List.getElem?_map, hu, List.getElem?_map, hu]
      simp [hcl]
  · rw [List.getElem?_eq_none (by rw [length_applyResults, List.length_map]; omega),
        List.getElem?_eq_none (by rw [List.length_map]; omega)]

/-- `DecoderV4` when the single batched call fails: pointwise, every pending
index gets the batch failure, every resolved index keeps its result. -/
theorem decoderV4_error_eq (oracle : List GoStr → Except GoStr (List GoStr))
    (urls : List GoURL) (e : GoStr)
    (hnd : ((pendings 0 urls).map Prod.snd).Nodup)
    (herr : oracle ((pendings 0 urls).map Prod.snd) = .error e) :
    DecoderV4 oracle urls =
      urls.map fun u =>
        match classify u with | .inl r => r | .inr _ => failBatch e := by
  rw [DecoderV4]
  by_cases hz : (pendings 0 urls).length = 0
  · rw [if_pos hz]
    apply List.map_congr_left
    intro u hu
    cases hcl : classify u with
    | inl r => rfl
    | inr t =>
      exact absurd hcl
        (classify_not_inr_of_pendings_nil urls (List.length_eq_zero.mp hz) u hu t)
  · rw [if_neg hz, herr]
    dsimp only
    rw [List.foldl_map]
    rw [foldl_congr_mem (pendings 0 urls) _
      (fun acc p => acc.set p.1 (failBatch e)) _
      (fun p hp acc => by
        dsimp only
        rw [lookLast_eq (pendings 0 urls) hnd p.1 p.2 hp])]
    have step1 :
        applyResults
          (urls.map fun u => match classify u with | .inl r => r | .inr _ => zeroResult)
          ((pendings 0 urls).map fun p => (p.1, failBatch e))
        = (pendings 0 urls).foldl (fun acc p => acc.set p.1 (failBatch e))
            (urls.map fun u => match classify u with | .inl r => r | .inr _ => zeroResult) := by
      rw [applyResults, List.foldl_map]
    rw [← step1]
    exact applyResults_over_pendings urls (fun _ => failBatch e)

/-- `DecoderV4` when the batched call answers one URL per token, positionally:
pointwise, every index gets what its own URL yields. -/
theorem decoderV4_ok_eq (oracle : List GoStr → Except GoStr (List GoStr))
    (urls : List GoURL) (resolve : GoStr → GoStr)
    (hnd : ((pendings 0 urls).map Prod.snd).Nodup)
    (hok : oracle ((pendings 0 urls).map Prod.snd) =
      .ok (((pendings 0 urls).map Prod.snd).map resolve)) :
    DecoderV4 oracle urls = urls.map (singleV4 resolve) := by
  rw [DecoderV4]
  by_cases hz : (pendings 0 urls).length = 0
  · rw [if_pos hz]
    apply List.map_congr_left
    intro u hu
    cases hcl : classify u with
    | inl r => simp [singleV4, hcl]
    | inr t =>
      exact absurd hcl
        (classify_not_inr_of_pendings_nil urls (List.length_eq_zero.mp hz) u hu t)
  · rw [if_neg hz, hok]
    dsimp only
    rw [enumL_map, List.foldl_map]
    rw [foldl_congr_mem (enumL 0 ((pendings 0 urls).map Prod.snd)) _
      (fun acc p => acc.set (lookLast (pendings 0 urls) p.2) ⟨true, resolve p.2, []⟩) _
      (fun p hp acc => by
        obtain ⟨-, hlt, hget⟩ := mem_enumL _ 0 p.1 p.2 hp
        simp only [Nat.sub_zero] at hlt hget
        dsimp only
        rw [if_pos hlt, List.getD_eq_getElem?_getD, hget]
        rfl)]
    refine ((foldl_snd_only Prod.snd
      (fun (acc : List DecodeResult) (tok : GoStr) =>
        acc.set (lookLast (pendings 0 urls) tok)
          (⟨true, resolve tok, []⟩ : DecodeResult))
      (pendings 0 urls) 0 _).trans ?_)
    refine ((foldl_congr_mem (pendings 0 urls) _
      (fun acc q => acc.set q.1 (⟨true, resolve q.2, []⟩ : DecodeResult)) _
      (fun q hq acc => by
        dsimp only
        rw [lookLast_eq (pendings 0 urls) hnd q.1 q.2 hq])).trans ?_)
    have step1 :
        applyResults
          (urls.map fun u => match classify u with | .inl r => r | .inr _ => zeroResult)
          ((pendings 0 urls).map fun p => (p.1, ⟨true, resolve p.2, []⟩))
        = (pendings 0 urls).foldl (fun acc p => acc.set p.1 ⟨true, resolve p.2, []⟩)
            (urls.map fun u => match classify u with | .inl r => r | .inr _ => zeroResult) := by
      rw [applyResults, List.foldl_map]
    rw [← step1]
    rw [applyResults_over_pendings urls
      (fun t => (⟨true, resolve t, []⟩ : DecodeResult))]
    apply List.map_congr_left
    intro u _
    cases hcl : classify u with
    | inl r => simp [singleV4, hcl]
    | inr t => simp [singleV4, hcl]

/-! ## Helper lemmas: lengths and permutation-independent collection -/

theorem length_foldl_preserve {β : Type}
    (body : List DecodeResult → β → List DecodeResult)
    (h : ∀ acc x, (body acc x).length = acc.length) :
    ∀ (l : List β) (init : List DecodeResult),
      (l.foldl body init).length = init.length := by
  intro l
  induction l with
  | nil => intro init; rfl
  | cons x t ih =>
    intro init
    show (t.foldl body (body init x)).length = init.length
    rw [ih (body init x), h init x]

theorem length_DecoderV4 (oracle : List GoStr → Except GoStr (List GoStr))
    (urls : List GoURL) : (DecoderV4 oracle urls).length = urls.length := by
  rw [DecoderV4]
  by_cases hz : (pendings 0 urls).length = 0
  · rw [if_pos hz, List.length_map]
  · rw [if_neg hz]
    cases oracle ((pendings 0 urls).map Prod.snd) with
    | error e =>
      rw [length_foldl_preserve _ (fun acc x => List.length_set ..), List.length_map]
    | ok us =>
      rw [length_foldl_preserve, List.length_map]
      intro acc x
      split
      · rw [List.length_set]
      · rfl

/-- Collecting a permutation of per-index results indexed by `enumL` fills
slot `i` with the result computed for input `i`, whatever the order. -/
theorem applyResults_perm_enum (F : Nat → GoURL → DecodeResult) (urls : List GoURL)
    (init : List DecodeResult) (hlen : init.length = urls.length)
    (order : List (Nat × DecodeResult))
    (hperm : order.Perm ((enumL 0 urls).map fun p => (p.1, F p.1 p.2))) :
    ∀ (i : Nat) (hi : i < urls.length),
      (applyResults init order)[i]? = some (F i urls[i]) := by
  intro i hi
  have hget : urls[i]? = some urls[i] := List.getElem?_eq_getElem hi
  have hmem0 : (i, urls[i]) ∈ enumL 0 urls := by
    simpa using enumL_mem_of_getElem? urls 0 i urls[i] hget
  have hmem : (i, F i urls[i]) ∈ (enumL 0 urls).map fun p => (p.1, F p.1 p.2) :=
    List.mem_map.mpr ⟨(i, urls[i]), hmem0, rfl⟩
  have hmemo : (i, F i urls[i]) ∈ order := hperm.mem_iff.mpr hmem
  have hnd0 : (((enumL 0 urls).map fun p => (p.1, F p.1 p.2)).map Prod.fst).Nodup := by
    rw [List.map_map]
    exact enumL_fst_nodup 0 urls
  have hnd : (order.map Prod.fst).Nodup :=
    ((hperm.map Prod.fst).nodup_iff).mpr hnd0
  exact applyResults_getElem?_mem order init i _ hnd hmemo (by omega)

/-- `DecodeURLs` returns the pointwise decode map for every completion order
that is a permutation of the tasks' indexed results. -/
theorem decodeURLs_perm (dec : GoURL → DecodeResult) (urls : List GoURL)
    (order : List (Nat × DecodeResult))
    (hperm : order.Perm (taskResults dec urls)) :
    DecodeURLs order urls = urls.map dec := by
  apply List.ext_getElem?
  intro i
  by_cases hi : i < urls.length
  · have := applyResults_perm_enum (fun _ u => dec u) urls
      (List.replicate urls.length zeroResult) (List.length_replicate ..)
      order hperm i hi
    rw [DecodeURLs, this]
    rw [List.getElem?_map, List.getElem?_eq_getElem hi]
    rfl
  · rw [List.getElem?_eq_none
      (by rw [DecodeURLs, length_applyResults, List.length_replicate]; omega)]
    rw [List.getElem?_eq_none (by rw [List.length_map]; omega)]

/-! ## Concrete inputs used by the evaluations below -/

/-- A URL whose token decodes to the bytes `0x00 0x41 0x41 0x41`: the length
byte is `0`, so the extracted payload is empty. -/
def emptyPayloadURL : GoURL := ⟨"news.google.com".toList, "/articles/AEFBQQ".toList⟩

/-- A URL outside the aggregator host. -/
def exampleURL : GoURL := ⟨"example.com".toList, "/not-a-google-news-url".toList⟩

/-- A URL whose token decodes to `AU_yqLx`, an opaque reference that needs
the batched RPC. -/
def auTestURL : GoURL := ⟨"news.google.com".toList, "/articles/QVVfeXFMeA".toList⟩

/-- An aggregator answering every token with the same resolved URL. -/
def constResolve : GoStr → GoStr := fun _ => "http://r".toList

/-- A well-behaved batch oracle: one URL per token, positionally. -/
def constOracle : List GoStr → Except GoStr (List GoStr) :=
  fun toks => .ok (toks.map constResolve)

/-- A batch oracle whose single call fails. -/
def errOracle : List GoStr → Except GoStr (List GoStr) :=
  fun _ => .error "boom".toList

/-- A single-token oracle that always fails (never reached in the pure
evaluations below). -/
def errFetch : GoStr → Except GoStr GoStr := fun _ => .error "x".toList

/-- An aggregator URL whose path has doubled slashes: its empty-segment-free
split is `["articles", "tok"]`, its raw split is `["", "", "articles", "",
"tok"]`. -/
def dupSlashURL : GoURL := ⟨"news.google.com".toList, "//articles//tok".toList⟩

/-- A well-formed aggregator URL used by the extraction witnesses. -/
def plainArticlesURL : GoURL := ⟨"news.google.com".toList, "/articles/tok".toList⟩

/-- A cancellation pattern: only task 0 sees the cancellation first. -/
def cancelFirst : Nat → Bool := fun i => i == 0

/-! ## Helper lemmas: base64 -/

theorem toNat_byteChar (n : Nat) (h : n < 256) : (byteChar n).toNat = n := by
  have hm : n % 256 = n := Nat.mod_eq_of_lt h
  have hv : n.isValidChar := Or.inl (by omega)
  rw [byteChar, hm]
  simp [Char.ofNat, hv, Char.ofNatAux, Char.toNat, UInt32.toNat, UInt32.ofNatCore]

theorem b64Val_b64Char : ∀ n : Nat, n < 64 → b64Val (b64Char n) = some n := by
  decide

theorem b64Char_ne_pad : ∀ n : Nat, n < 64 → b64Char n ≠ '=' := by
  decide

theorem b64DecodeRaw_length_mod4 :
    ∀ (s : GoStr) (bs : GoStr), b64DecodeRaw s = some bs → s.length % 4 = 0 := by
  intro s
  induction s using b64DecodeRaw.induct with
  | case1 => intro bs _; rfl
  | case2 a b d rest va vb hvb hva hcond =>
    intro bs h
    obtain ⟨hd, hrest⟩ := hcond
    subst hd; subst hrest
    simp only [List.length_cons, List.length_nil]
  | case3 a b d rest va vb hvb hva hcond =>
    intro bs h
    simp [b64DecodeRaw, hva, hvb, hcond] at h
  | case4 a b c va vb hvb hva hc vc hvc =>
    intro bs h
    simp only [List.length_cons, List.length_nil]
  | case5 a b c rest va vb hvb hva hc vc hvc hrest =>
    intro bs h
    simp [b64DecodeRaw, hva, hvb, hvc, hc, hrest] at h
  | case6 a b c d rest va vb hvb hva hc vc hvc hd vd tail hrec hvd ih =>
    intro bs h
    have := ih tail hrec
    simp only [List.length_cons]
    omega
  | case7 a b c d rest va vb hvb hva hc vc hvc hd hfail ih =>
    intro bs h
    cases hvd : b64Val d with
    | none => simp [b64DecodeRaw, hva, hvb, hvc, hc, hd, hvd] at h
    | some vd =>
      cases hrec : b64DecodeRaw rest with
      | none => simp [b64DecodeRaw, hva, hvb, hvc, hc, hd, hvd, hrec] at h
      | some tail => exact (hfail vd tail hvd hrec).elim
  | case8 a b c d rest va vb hvb hva hc hvc =>
    intro bs h
    simp [b64DecodeRaw, hva, hvb, hvc, hc] at h
  | case9 a b c d rest hfail =>
    intro bs h
    cases hva : b64Val a with
    | none => simp [b64DecodeRaw, hva] at h
    | some va =>
      cases hvb : b64Val b with
      | none => simp [b64DecodeRaw, hva, hvb] at h
      | some vb => exact (hfail va vb hva hvb).elim
  | case10 t hne hnshape =>
    intro bs h
    match t, hne, hnshape, h with
    | [], hne, _, h => exact absurd rfl hne
    | [a], _, _, h => simp [b64DecodeRaw] at h
    | [a, b], _, _, h => simp [b64DecodeRaw] at h
    | [a, b, c], _, _, h => simp [b64DecodeRaw] at h
    | a :: b :: c :: d :: rest, _, hnshape, h => exact absurd rfl (hnshape a b c d rest)

theorem byteChar_toNat (c : Char) (h : c.toNat < 256) : byteChar c.toNat = c := by
  rw [byteChar, Nat.mod_eq_of_lt h, Char.ofNat_toNat]

/-- Decoding the padded form of the unpadded encoding recovers the bytes,
when the byte count is `≡ 1 (mod 3)` (so that exactly `"=="` completes the
final block, matching the decoders' unconditional padding). -/
theorem b64_roundtrip :
    ∀ (n : Nat) (bs : GoStr), bs.length ≤ n → (∀ c ∈ bs, c.toNat < 256) →
      bs.length % 3 = 1 →
      b64DecodeRaw (b64EncodeRaw bs ++ ('=' :: '=' :: [])) = some bs := by
  intro n
  induction n with
  | zero =>
    intro bs hlen _ hmod
    interval_cases h : bs.length
    · omega
  | succ n ih =>
    intro bs hlen h256 hmod
    match bs with
    | [] => simp at hmod
    | [x] =>
      have hX : x.toNat < 256 := h256 x (by simp)
      simp only [b64EncodeRaw, List.cons_append, List.nil_append]
      simp only [b64DecodeRaw,
        b64Val_b64Char _ (by omega : x.toNat / 4 < 64),
        b64Val_b64Char _ (by omega : x.toNat % 4 * 16 < 64)]
      simp
      rw [show x.toNat / 4 * 4 + x.toNat % 4 = x.toNat from by omega,
          byteChar_toNat x hX]
    | [x, y] => simp at hmod
    | x :: y :: z :: rest =>
      have hX : x.toNat < 256 := h256 x (by simp)
      have hY : y.toNat < 256 := h256 y (by simp)
      have hZ : z.toNat < 256 := h256 z (by simp)
      have hrest : b64DecodeRaw (b64EncodeRaw rest ++ ('=' :: '=' :: [])) = some rest := by
        apply ih rest
        · simp only [List.length_cons] at hlen; omega
        · intro c hc; exact h256 c (by simp [hc])
        · simp only [List.length_cons] at hmod ⊢; omega
      simp only [b64EncodeRaw, List.cons_append]
      simp only [b64DecodeRaw,
        b64Val_b64Char _ (by omega : x.toNat / 4 < 64),
        b64Val_b64Char _ (by omega : x.toNat % 4 * 16 + y.toNat / 16 < 64),
        b64Val_b64Char _ (by omega : y.toNat % 16 * 4 + z.toNat / 64 < 64),
        b64Val_b64Char _ (by omega : z.toNat % 64 < 64),
        hrest]
      rw [if_neg (b64Char_ne_pad _ (by omega : y.toNat % 16 * 4 + z.toNat / 64 < 64)),
          if_neg (b64Char_ne_pad _ (by omega : z.toNat % 64 < 64))]
      have h1 : x.toNat / 4 * 4 + (x.toNat % 4 * 16 + y.toNat / 16) / 16 = x.toNat := by
        omega
      have h2 : (x.toNat % 4 * 16 + y.toNat / 16) % 16 * 16 +
          (y.toNat % 16 * 4 + z.toNat / 64) / 4 = y.toNat := by
        omega
      have h3 : (y.toNat % 16 * 4 + z.toNat / 64) % 4 * 64 + z.toNat % 64 = z.toNat := by
        omega
      rw [h1, h2, h3, byteChar_toNat x hX, byteChar_toNat y hY, byteChar_toNat z hZ]

theorem b64Char_ne_crlf : ∀ n : Nat, n < 64 → b64Char n ≠ '\r' ∧ b64Char n ≠ '\n' := by
  decide

theorem stripCRLF_eq_self (l : GoStr) (h : ∀ c ∈ l, c ≠ '\r' ∧ c ≠ '\n') :
    stripCRLF l = l := by
  rw [stripCRLF, List.filter_eq_self]
  intro c hc
  have hcc := h c hc
  simp [hcc.1, hcc.2]

/-- The unpadded encoder never emits a CR or LF. -/
theorem b64EncodeRaw_ne_crlf :
    ∀ (n : Nat) (bs : GoStr), bs.length ≤ n → (∀ c ∈ bs, c.toNat < 256) →
      ∀ c ∈ b64EncodeRaw bs, c ≠ '\r' ∧ c ≠ '\n' := by
  intro n
  induction n with
  | zero =>
    intro bs hlen _ c hc
    match bs, hlen with
    | [], _ => cases hc
  | succ n ih =>
    intro bs hlen h256 c hc
    match bs with
    | [] => cases hc
    | [x] =>
      have hX : x.toNat < 256 := h256 x (by simp)
      simp only [b64EncodeRaw, List.mem_cons, List.not_mem_nil, or_false] at hc
      rcases hc with h | h <;> (subst h; exact b64Char_ne_crlf _ (by omega))
    | [x, y] =>
      have hX : x.toNat < 256 := h256 x (by simp)
      have hY : y.toNat < 256 := h256 y (by simp)
      simp only [b64EncodeRaw, List.mem_cons, List.not_mem_nil, or_false] at hc
      rcases hc with h | h | h <;> (subst h; exact b64Char_ne_crlf _ (by omega))
    | x :: y :: z :: rest =>
      have hX : x.toNat < 256 := h256 x (by simp)
      have hY : y.toNat < 256 := h256 y (by simp)
      have hZ : z.toNat < 256 := h256 z (by simp)
      simp only [b64EncodeRaw, List.mem_cons] at hc
      rcases hc with h | h | h | h | h
      · subst h; exact b64Char_ne_crlf _ (by omega)
      · subst h; exact b64Char_ne_crlf _ (by omega)
      · subst h; exact b64Char_ne_crlf _ (by omega)
      · subst h; exact b64Char_ne_crlf _ (by omega)
      · exact ih rest (by simp only [List.length_cons] at hlen; omega)
          (fun c hcr => h256 c (by simp [hcr])) c h

/-! ## Helper lemmas: prefix/suffix stripping and payload extraction -/

theorem stripPrefix_append (rest : GoStr) : stripPrefix (binPrefix ++ rest) = rest := by
  rw [stripPrefix, if_pos (List.isPrefixOf_iff_prefix.mpr (List.prefix_append _ _)),
      List.drop_left]

theorem stripSuffix_append (s : GoStr) : stripSuffix (s ++ binSuffix) = s := by
  rw [stripSuffix, if_pos (List.isSuffixOf_iff_suffix.mpr (List.suffix_append _ _))]
  rw [List.length_append]
  rw [Nat.add_sub_cancel]
  exact List.take_left' rfl

theorem extractPayload_exact (c : Char) (t : GoStr) (h : t.length = c.toNat) :
    extractPayload (c :: t) = c :: t := by
  rw [extractPayload]
  rw [if_neg (by simp only [List.length_cons]; omega)]
  rw [if_neg (by simp only [List.length_cons]; omega)]

theorem extractPayload_short (c : Char) (t : GoStr)
    (h : (c :: t).length < c.toNat + 1) : extractPayload (c :: t) = c :: t := by
  rw [extractPayload]
  rw [if_neg (by omega)]
  rw [if_neg (by omega)]

/-! ## Helper lemmas: first-occurrence splitting for the marker scan -/

/-- If the pattern's first character does not occur in `j`, the first
occurrence of `pat` in `j ++ (pat ++ rest)` is right after `j`. -/
theorem splitOnFirst_mid (pat : GoStr) (c0 : Char) (hhead : pat.head? = some c0) :
    ∀ (j rest : GoStr), c0 ∉ j →
      splitOnFirst pat (j ++ (pat ++ rest)) = some (j, rest) := by
  obtain ⟨p', rfl⟩ : ∃ p', pat = c0 :: p' := by
    cases pat with
    | nil => simp at hhead
    | cons x xs =>
      simp only [List.head?_cons, Option.some.injEq] at hhead
      exact ⟨xs, by rw [hhead]⟩
  intro j
  induction j with
  | nil =>
    intro rest _
    have hp : (c0 :: p').isPrefixOf (c0 :: (p' ++ rest)) := by
      have := List.isPrefixOf_iff_prefix.mpr (List.prefix_append (c0 :: p') rest)
      simpa using this
    rw [List.nil_append, List.cons_append, splitOnFirst, if_pos hp]
    rw [List.length_cons, List.drop_succ_cons, List.drop_left]
  | cons a j' ih =>
    intro rest hnm
    have ha : ¬(c0 :: p').isPrefixOf (a :: (j' ++ ((c0 :: p') ++ rest))) := by
      intro hp
      obtain ⟨t, ht⟩ := List.isPrefixOf_iff_prefix.mp hp
      have : c0 = a := by
        have := congrArg List.head? ht
        simpa using this
      exact hnm (this ▸ List.mem_cons_self a j')
    rw [List.cons_append, splitOnFirst, if_neg ha,
        ih rest (fun hm => hnm (List.mem_cons_of_mem a hm))]

/-- A pattern containing a character that the text lacks never occurs. -/
theorem splitOnFirst_none_of_not_mem (pat : GoStr) (c : Char) (hc : c ∈ pat) :
    ∀ l : GoStr, c ∉ l → splitOnFirst pat l = none := by
  intro l
  induction l with
  | nil =>
    intro _
    rw [splitOnFirst, if_neg]
    intro hp
    have : pat = [] := by
      have := List.isPrefixOf_iff_prefix.mp hp
      simpa using this.length_le
    rw [this] at hc
    cases hc
  | cons a t ih =>
    intro hnm
    have hnp : ¬pat.isPrefixOf (a :: t) := by
      intro hp
      exact hnm ((List.isPrefixOf_iff_prefix.mp hp).subset hc)
    rw [splitOnFirst, if_neg hnp, ih (fun hm => hnm (List.mem_cons_of_mem a hm))]

theorem extractUrls_eq_nil (text : GoStr)
    (h : splitOnFirst headerM text = none) : extractUrls text = [] := by
  rw [extractUrls]
  split
  · rfl
  · next _ start heq =>
    rw [h] at heq
    cases heq

theorem extractUrls_eq_cons (text pre start u rest : GoStr)
    (h1 : splitOnFirst headerM text = some (pre, start))
    (h2 : splitOnFirst footerM start = some (u, rest)) :
    extractUrls text = u :: extractUrls rest := by
  rw [extractUrls]
  split
  · next heq => rw [h1] at heq; cases heq
  · next pre' start' heq =>
    rw [h1] at heq
    injection heq with heq
    injection heq with heqp heqs
    subst heqs
    split
    · next hfq => rw [h2] at hfq; cases hfq
    · next u' rest' hfq =>
      rw [h2] at hfq
      injection hfq with hfq
      injection hfq with hequ heqr
      subst hequ
      subst heqr
      rfl

/-- The scanning loop of the batched-response parser recovers exactly the
embedded URLs, in order of appearance: every junk stretch is free of `[` (so
it cannot start a marker) and every URL is free of `\` (so it cannot contain
the terminator), as is the case for the aggregator's escaped response text. -/
theorem extractUrls_assemble :
    ∀ (parts : List (GoStr × GoStr)) (tail : GoStr),
      (∀ p ∈ parts, '[' ∉ p.1 ∧ '\\' ∉ p.2) → '[' ∉ tail →
      extractUrls (assemble parts tail) = parts.map Prod.snd := by
  intro parts
  induction parts with
  | nil =>
    intro tail _ htail
    rw [assemble,
        extractUrls_eq_nil _ (splitOnFirst_none_of_not_mem headerM '[' (by decide) tail htail)]
    rfl
  | cons p parts' ih =>
    intro tail hcond htail
    obtain ⟨j, u⟩ := p
    have hj : '[' ∉ j := (hcond (j, u) (List.mem_cons_self _ _)).1
    have hu : '\\' ∉ u := (hcond (j, u) (List.mem_cons_self _ _)).2
    rw [assemble]
    rw [extractUrls_eq_cons _ j (u ++ (footerM ++ assemble parts' tail)) u
        (assemble parts' tail)
        (splitOnFirst_mid headerM '[' (by decide) j
          (u ++ (footerM ++ assemble parts' tail)) hj)
        (splitOnFirst_mid footerM '\\' (by decide) u (assemble parts' tail) hu)]
    rw [ih tail (fun q hq => hcond q (List.mem_cons_of_mem _ hq)) htail]
    rfl

/-! ## Helper lemmas: token extraction -/

theorem getBase64Str_ok_iff (u : GoURL) (t : GoStr) :
    GetBase64Str u = ⟨true, t, []⟩ ↔
      (u.host = newsHost ∧ 2 ≤ (splitPath u.path).length ∧
        ((splitPath u.path).getD ((splitPath u.path).length - 2) [] = articlesSeg ∨
         (splitPath u.path).getD ((splitPath u.path).length - 2) [] = readSeg) ∧
        t = (splitPath u.path).getD ((splitPath u.path).length - 1) []) := by
  rw [GetBase64Str]
  by_cases h1 : u.host ≠ newsHost ∨ (splitPath u.path).length ≤ 1
  · rw [if_pos h1]
    constructor
    · intro he
      exact absurd (congrArg DecodeResult.status he) (by simp)
    · rintro ⟨hh, hl, -, -⟩
      rcases h1 with h1 | h1
      · exact absurd hh h1
      · omega
  · rw [if_neg h1]
    push_neg at h1
    by_cases h2 : (splitPath u.path).getD ((splitPath u.path).length - 2) [] ≠ articlesSeg ∧
        (splitPath u.path).getD ((splitPath u.path).length - 2) [] ≠ readSeg
    · rw [if_pos h2]
      constructor
      · intro he
        exact absurd (congrArg DecodeResult.status he) (by simp)
      · rintro ⟨-, -, hseg, -⟩
        rcases hseg with hseg | hseg
        · exact absurd hseg h2.1
        · exact absurd hseg h2.2
    · rw [if_neg h2]
      constructor
      · intro he
        have hst := congrArg DecodeResult.decodedURL he
        simp only at hst
        refine ⟨h1.1, by omega, ?_, hst.symm⟩
        by_cases ha : (splitPath u.path).getD ((splitPath u.path).length - 2) [] = articlesSeg
        · exact Or.inl ha
        · exact Or.inr (by tauto)
      · rintro ⟨-, -, -, ht⟩
        rw [ht]

theorem extractTokenV1_ok_iff (u : GoURL) (t : GoStr) :
    extractTokenV1 u = .ok t ↔
      (u.host = newsHost ∧ 2 ≤ (goSplitChar '/' u.path).length ∧
        ((goSplitChar '/' u.path).getD ((goSplitChar '/' u.path).length - 2) [] = articlesSeg ∨
         (goSplitChar '/' u.path).getD ((goSplitChar '/' u.path).length - 2) [] = readSeg) ∧
        t = (goSplitChar '/' u.path).getD ((goSplitChar '/' u.path).length - 1) []) := by
  rw [extractTokenV1]
  by_cases h1 : u.host ≠ newsHost ∨ (goSplitChar '/' u.path).length ≤ 1
  · rw [if_pos h1]
    constructor
    · intro he; cases he
    · rintro ⟨hh, hl, -, -⟩
      rcases h1 with h1 | h1
      · exact absurd hh h1
      · omega
  · rw [if_neg h1]
    push_neg at h1
    by_cases h2 : (goSplitChar '/' u.path).getD ((goSplitChar '/' u.path).length - 2) [] ≠ articlesSeg ∧
        (goSplitChar '/' u.path).getD ((goSplitChar '/' u.path).length - 2) [] ≠ readSeg
    · rw [if_pos h2]
      constructor
      · intro he; cases he
      · rintro ⟨-, -, hseg, -⟩
        rcases hseg with hseg | hseg
        · exact absurd hseg h2.1
        · exact absurd hseg h2.2
    · rw [if_neg h2]
      constructor
      · intro he
        injection he with he
        refine ⟨h1.1, by omega, ?_, he.symm⟩
        by_cases ha : (goSplitChar '/' u.path).getD ((goSplitChar '/' u.path).length - 2) [] = articlesSeg
        · exact Or.inl ha
        · exact Or.inr (by tauto)
      · rintro ⟨-, -, -, ht⟩
        rw [ht]

theorem append_left_ne_nil (l e : GoStr) (h : l ≠ []) : l ++ e ≠ [] := by
  cases l with
  | nil => exact absurd rfl h
  | cons a t => simp

/-! ## Claims -/

/-- C1 (counterexample): `DecoderV3` on
`https://news.google.com/articles/AEFBQQ` returns `status = true` with an
empty `decoded_url` — the token's bytes are `0x00 0x41 0x41 0x41`, the length
byte is `0`, and the extracted payload is the empty string.  This refutes
"if status is true then decoded_url is a non-empty string". -/
theorem c1_true_empty_url_counterexample :
    (DecoderV3 errFetch emptyPayloadURL).status = true ∧
    (DecoderV3 errFetch emptyPayloadURL).decodedURL = [] := by decide

/-- C1 (amended): the `status = false` half of the invariant holds: every
failing result of `DecoderV3` (under any RPC oracle) and of `GetBase64Str`
carries a non-empty message.  The `status = true` half is false (see the
counterexample). -/
theorem c1_nonempty_message_invariant :
    (∀ (fetch : GoStr → Except GoStr GoStr) (u : GoURL),
        (DecoderV3 fetch u).status = false → (DecoderV3 fetch u).message ≠ []) ∧
    ∀ u : GoURL, (GetBase64Str u).status = false → (GetBase64Str u).message ≠ [] := by
  constructor
  · intro fetch u
    rw [DecoderV3]
    cases extractTokenRaw u with
    | none => dsimp only; intro _; decide
    | some tok =>
      dsimp only
      cases decodeBinaryToken tok with
      | none => dsimp only; intro _; decide
      | some ds =>
        dsimp only
        by_cases hau : auMarker.isPrefixOf ds
        · rw [if_pos hau]
          cases fetch tok with
          | error e =>
            dsimp only
            intro _
            exact append_left_ne_nil _ _ (by decide)
          | ok dec =>
            dsimp only
            intro hst
            simp at hst
        · rw [if_neg hau]
          dsimp only
          intro hst
          simp at hst
  · intro u
    rw [GetBase64Str]
    by_cases h1 : u.host ≠ newsHost ∨ (splitPath u.path).length ≤ 1
    · rw [if_pos h1]; intro _; decide
    · rw [if_neg h1]
      by_cases h2 : (splitPath u.path).getD ((splitPath u.path).length - 2) [] ≠ articlesSeg ∧
          (splitPath u.path).getD ((splitPath u.path).length - 2) [] ≠ readSeg
      · rw [if_pos h2]; intro _; decide
      · rw [if_neg h2]; intro hst; simp at hst

theorem c1_nonempty_message_witness :
    (DecoderV3 errFetch exampleURL).status = false ∧
    (DecoderV3 errFetch exampleURL).message ≠ [] :=
  ⟨by decide, c1_nonempty_message_invariant.1 errFetch exampleURL (by decide)⟩

/-- C2 (counterexample): the round-trip fails as stated.  For payload
`"abc"`, the token built by the claim's construction (base64url of prefix +
length byte + payload + suffix) does not decode back to `"abc"`: the guard
`len(decodedStr) > length+1` is false when the stripped buffer is exactly
`length+1` bytes long, so the length byte is never removed. -/
theorem c2_roundtrip_counterexample :
    decodeBinaryToken
        (b64EncodeRaw (binPrefix ++ ((byteChar 3 :: "abc".toList) ++ binSuffix)))
      ≠ some "abc".toList := by decide

/-- C2 (amended): for a payload of length `L ≤ 255` with `L ≡ 0 (mod 3)`
(so that the unpadded token plus the decoders' unconditional `"=="` is valid
base64), the synthetic token decodes to the *length byte followed by the
payload*: the stripped buffer has exactly `L + 1` bytes, the `> L + 1`
guards both fail, and the buffer is returned unchanged. -/
theorem c2_roundtrip_keeps_length_byte (payload : GoStr)
    (h256 : ∀ c ∈ payload, c.toNat < 256)
    (hlen : payload.length ≤ 255) (hmod : payload.length % 3 = 0) :
    decodeBinaryToken
        (b64EncodeRaw (binPrefix ++ ((byteChar payload.length :: payload) ++ binSuffix)))
      = some (byteChar payload.length :: payload) := by
  have hb256 : ∀ c ∈ binPrefix ++ ((byteChar payload.length :: payload) ++ binSuffix),
      c.toNat < 256 := by
    intro c hc
    rcases List.mem_append.mp hc with hpre | hc2
    · simp only [binPrefix, List.mem_cons, List.not_mem_nil, or_false] at hpre
      rcases hpre with h | h | h <;> (subst h; decide)
    · rcases List.mem_append.mp hc2 with hmid | hsuf
      · rcases List.mem_cons.mp hmid with hb | hp
        · subst hb; rw [toNat_byteChar _ (by omega)]; omega
        · exact h256 c hp
      · simp only [binSuffix, List.mem_cons, List.not_mem_nil, or_false] at hsuf
        rcases hsuf with h | h | h <;> (subst h; decide)
  have hblen : (binPrefix ++ ((byteChar payload.length :: payload) ++ binSuffix)).length
      = payload.length + 7 := by
    simp only [binPrefix, binSuffix, List.length_append, List.length_cons,
      List.length_nil]
    omega
  have hdec := b64_roundtrip (payload.length + 7) _ (le_of_eq hblen) hb256
    (by rw [hblen]; omega)
  have hnocrlf :
      stripCRLF (b64EncodeRaw (binPrefix ++ ((byteChar payload.length :: payload) ++ binSuffix))
          ++ ('=' :: '=' :: []))
        = b64EncodeRaw (binPrefix ++ ((byteChar payload.length :: payload) ++ binSuffix))
          ++ ('=' :: '=' :: []) := by
    apply stripCRLF_eq_self
    intro c hc
    rcases List.mem_append.mp hc with h | h
    · exact b64EncodeRaw_ne_crlf
        (binPrefix ++ ((byteChar payload.length :: payload) ++ binSuffix)).length
        _ le_rfl hb256 c h
    · simp only [List.mem_cons, List.not_mem_nil, or_false] at h
      rcases h with h | h <;> (subst h; decide)
  rw [decodeBinaryToken]
  rw [show ("==".toList : GoStr) = ('=' :: '=' :: []) from rfl]
  rw [b64Decode, hnocrlf, hdec]
  dsimp only
  rw [stripPrefix_append, stripSuffix_append]
  exact congrArg some
    (extractPayload_exact _ _ (toNat_byteChar _ (by omega)).symm)

theorem c2_roundtrip_witness :
    (∀ c ∈ ("abc".toList : GoStr), c.toNat < 256) ∧
    decodeBinaryToken
        (b64EncodeRaw (binPrefix ++ ((byteChar ("abc".toList.length) :: "abc".toList) ++ binSuffix)))
      = some (byteChar ("abc".toList.length) :: "abc".toList) :=
  ⟨by decide,
   c2_roundtrip_keeps_length_byte "abc".toList (by decide) (by decide) (by decide)⟩

/-- C3 (counterexample): the i-th result of `DecoderV4` is *not* in general
the result of decoding the i-th input URL: with the same opaque-reference URL
at indices 0 and 1 and a well-behaved batch oracle, index 0 of the pair run
differs from index 0 of the singleton run on the identical URL (it is left as
the zero value because `idToIndex` retains only the last index per token). -/
theorem c3_duplicate_token_counterexample :
    (DecoderV4 constOracle [auTestURL, auTestURL])[0]? ≠
      (DecoderV4 constOracle [auTestURL])[0]? := by decide

/-- C3 (amended): (1) `ConcurrentDecoder.DecodeURLs` returns exactly the
pointwise decode map for every completion order — a permutation of the
indexed task results — so length and order are preserved regardless of
completion order; (2) `DecoderV4` always returns as many results as inputs;
(3) `DecoderV4` is the pointwise map of `singleV4` provided the pending
tokens are pairwise distinct and the batched response is positional
(one URL per submitted token). -/
theorem c3_order_preservation :
    (∀ (dec : GoURL → DecodeResult) (urls : List GoURL)
        (order : List (Nat × DecodeResult)),
        order.Perm (taskResults dec urls) → DecodeURLs order urls = urls.map dec) ∧
    (∀ (oracle : List GoStr → Except GoStr (List GoStr)) (urls : List GoURL),
        (DecoderV4 oracle urls).length = urls.length) ∧
    ∀ (oracle : List GoStr → Except GoStr (List GoStr)) (resolve : GoStr → GoStr)
      (urls : List GoURL),
      ((pendings 0 urls).map Prod.snd).Nodup →
      oracle ((pendings 0 urls).map Prod.snd) =
        .ok (((pendings 0 urls).map Prod.snd).map resolve) →
      DecoderV4 oracle urls = urls.map (singleV4 resolve) :=
  ⟨decodeURLs_perm, length_DecoderV4,
   fun oracle resolve urls hnd hok => decoderV4_ok_eq oracle urls resolve hnd hok⟩

theorem c3_order_preservation_witness :
    DecodeURLs ((taskResults GetBase64Str [exampleURL, plainArticlesURL]).reverse)
        [exampleURL, plainArticlesURL]
      = [exampleURL, plainArticlesURL].map GetBase64Str ∧
    (DecoderV4 errOracle [exampleURL, auTestURL]).length = 2 ∧
    DecoderV4 constOracle [exampleURL, auTestURL]
      = [exampleURL, auTestURL].map (singleV4 constResolve) :=
  ⟨c3_order_preservation.1 GetBase64Str [exampleURL, plainArticlesURL] _ (by decide),
   c3_order_preservation.2.1 errOracle [exampleURL, auTestURL],
   c3_order_preservation.2.2 constOracle constResolve [exampleURL, auTestURL]
     (by decide) rfl⟩

/-- C4 (counterexample): the claimed iff fails for the extraction step of
`newDecoderV1WithClient`.  On `https://news.google.com//articles//tok` the
path split with empty segments removed is `["articles", "tok"]` — the claim's
conditions hold with token `"tok"` — yet `newDecoderV1WithClient` fails,
because it splits without removing empty segments and finds `""` as the
second-to-last segment. -/
theorem c4_raw_split_counterexample :
    (dupSlashURL.host = newsHost ∧
      2 ≤ (splitPath dupSlashURL.path).length ∧
      (splitPath dupSlashURL.path).getD ((splitPath dupSlashURL.path).length - 2) []
        = articlesSeg ∧
      (splitPath dupSlashURL.path).getD ((splitPath dupSlashURL.path).length - 1) []
        = "tok".toList) ∧
    extractTokenV1 dupSlashURL = .error "invalid Google News URL format".toList :=
  ⟨by decide, rfl⟩

/-- C4 (amended): `GetBase64Str` satisfies the claimed iff over the
empty-segment-free split; the extraction step of `newDecoderV1WithClient`
satisfies the analogous iff over the *raw* split (empty segments kept), with
the last raw segment (possibly empty) as the token. -/
theorem c4_token_extraction_split_iff :
    (∀ (u : GoURL) (t : GoStr),
        GetBase64Str u = ⟨true, t, []⟩ ↔
          (u.host = newsHost ∧ 2 ≤ (splitPath u.path).length ∧
            ((splitPath u.path).getD ((splitPath u.path).length - 2) [] = articlesSeg ∨
             (splitPath u.path).getD ((splitPath u.path).length - 2) [] = readSeg) ∧
            t = (splitPath u.path).getD ((splitPath u.path).length - 1) [])) ∧
    ∀ (u : GoURL) (t : GoStr),
      extractTokenV1 u = .ok t ↔
        (u.host = newsHost ∧ 2 ≤ (goSplitChar '/' u.path).length ∧
          ((goSplitChar '/' u.path).getD ((goSplitChar '/' u.path).length - 2) []
              = articlesSeg ∨
           (goSplitChar '/' u.path).getD ((goSplitChar '/' u.path).length - 2) []
              = readSeg) ∧
          t = (goSplitChar '/' u.path).getD ((goSplitChar '/' u.path).length - 1) []) :=
  ⟨getBase64Str_ok_iff, extractTokenV1_ok_iff⟩

theorem c4_token_extraction_witness :
    GetBase64Str plainArticlesURL = ⟨true, "tok".toList, []⟩ ∧
    extractTokenV1 plainArticlesURL = .ok "tok".toList :=
  ⟨(c4_token_extraction_split_iff.1 plainArticlesURL "tok".toList).mpr
     ⟨by decide, by decide, Or.inl (by decide), by decide⟩,
   (c4_token_extraction_split_iff.2 plainArticlesURL "tok".toList).mpr
     ⟨by decide, by decide, Or.inl (by decide), by decide⟩⟩

/-- C5: (1) whenever the base64-decoded, prefix/suffix-stripped byte sequence
is shorter than `L + 1` bytes (`L` its first byte), the binary token decoder
returns that byte sequence unchanged; (2) the length-byte slicing step, with
Go's slice bounds checks made explicit, never goes out of bounds on any byte
sequence (it always produces a value, never a panic). -/
theorem c5_short_buffer_unchanged :
    (∀ (tok bs : GoStr) (c : Char) (t : GoStr),
        b64Decode (tok ++ "==".toList) = some bs →
        stripSuffix (stripPrefix bs) = c :: t →
        (c :: t).length < c.toNat + 1 →
        decodeBinaryToken tok = some (c :: t)) ∧
    ∀ s : GoStr, extractPayloadChecked s = some (extractPayload s) := by
  constructor
  · intro tok bs c t hdec hstrip hshort
    rw [decodeBinaryToken, hdec]
    dsimp only
    rw [hstrip, extractPayload_short c t hshort]
  · intro s
    match s with
    | [] => rfl
    | c :: t =>
      rw [extractPayload, extractPayloadChecked]
      by_cases h1 : c.toNat ≥ 0x80 ∧ (c :: t).length > c.toNat + 1
      · rw [if_pos h1, if_pos h1, goSlice, if_pos (by omega)]
        rw [show c.toNat + 1 - 2 = c.toNat - 1 from by omega]
      · rw [if_neg h1, if_neg h1]
        by_cases h2 : (c :: t).length > c.toNat + 1
        · rw [if_pos h2, if_pos h2, goSlice, if_pos (by omega)]
          rw [show c.toNat + 1 - 1 = c.toNat from by omega]
        · rw [if_neg h2, if_neg h2]

theorem c5_short_buffer_witness :
    decodeBinaryToken "BQ".toList = some [Char.ofNat 5] ∧
    extractPayloadChecked [Char.ofNat 5] = some (extractPayload [Char.ofNat 5]) :=
  ⟨c5_short_buffer_unchanged.1 "BQ".toList [Char.ofNat 5] (Char.ofNat 5) []
     (by decide) (by decide) (by decide),
   c5_short_buffer_unchanged.2 [Char.ofNat 5]⟩

/-- C6 (code bug, evaluation): `DecoderV4` on two copies of the same
opaque-reference URL, with a batch oracle that resolves every submitted
token.  The spec requires both indices to receive the resolved URL; index 0
instead keeps the slice's zero value `{status: false, "", ""}` because
`idToIndex[token]` was overwritten by the second occurrence, so both fill
iterations write index 1. -/
theorem c6_duplicate_batch_token_eval :
    DecoderV4 constOracle [auTestURL, auTestURL] =
      [zeroResult, ⟨true, "http://r".toList, []⟩] := by decide

/-- C7: if the single batched call fails, every index whose token was pending
receives `status = false` with the batch failure message, and every index
already resolved without the network keeps exactly its first-pass result
(pending tokens assumed pairwise distinct, as the claim states). -/
theorem c7_batch_failure_propagation
    (oracle : List GoStr → Except GoStr (List GoStr)) (urls : List GoURL)
    (e : GoStr) (hnd : ((pendings 0 urls).map Prod.snd).Nodup)
    (herr : oracle ((pendings 0 urls).map Prod.snd) = .error e) :
    ∀ (i : Nat) (hi : i < urls.length),
      (DecoderV4 oracle urls)[i]? =
        some (match classify urls[i] with
          | .inl r => r
          | .inr _ => failBatch e) := by
  intro i hi
  rw [decoderV4_error_eq oracle urls e hnd herr]
  rw [List.getElem?_map, List.getElem?_eq_getElem hi]
  rfl

theorem c7_batch_failure_witness :
    ((pendings 0 [exampleURL, auTestURL]).map Prod.snd).Nodup ∧
    (DecoderV4 errOracle [exampleURL, auTestURL])[0]? =
      some ⟨false, [], "invalid Google News URL".toList⟩ ∧
    (DecoderV4 errOracle [exampleURL, auTestURL])[1]? =
      some (failBatch "boom".toList) :=
  ⟨by decide,
   (c7_batch_failure_propagation errOracle [exampleURL, auTestURL] "boom".toList
      (by decide) rfl 0 (by decide)).trans (by decide),
   (c7_batch_failure_propagation errOracle [exampleURL, auTestURL] "boom".toList
      (by decide) rfl 1 (by decide)).trans (by decide)⟩

/-- C8: the batched-response parser recovers the embedded URLs by the
repeated marker/terminator scan, in their order of appearance in the body:
on any body assembled as junk + marker + url + terminator (repeated) + tail,
where junk and tail cannot start a marker (`[` free) and urls cannot contain
the terminator (`\` free, as the escaped response text guarantees),
`extractUrls` returns exactly the url list in order. -/
theorem c8_marker_scan_in_order :
    ∀ (parts : List (GoStr × GoStr)) (tail : GoStr),
      (∀ p ∈ parts, '[' ∉ p.1 ∧ '\\' ∉ p.2) → '[' ∉ tail →
      extractUrls (assemble parts tail) = parts.map Prod.snd :=
  extractUrls_assemble

theorem c8_marker_scan_witness :
    extractUrls
        (assemble [("x)]".toList, "http://a".toList), ([], "http://b".toList)]
          "z".toList)
      = ["http://a".toList, "http://b".toList] :=
  c8_marker_scan_in_order
    [("x)]".toList, "http://a".toList), ([], "http://b".toList)] "z".toList
    (by decide) (by decide)

/-- C9: in `DecodeURLsWithContext`, a task whose `select` sees the
cancellation signal before acquiring its semaphore slot reports
`status = false, message = "context cancelled"` without invoking the decoder
(`cancelled i = true`), while a task that acquired its permit reports the
decoder's real result; in both cases every index of the output is filled
with its own task's result, for any completion order. -/
theorem c9_cancellation_behavior
    (dec : GoURL → DecodeResult) (cancelled : Nat → Bool) (urls : List GoURL)
    (order : List (Nat × DecodeResult))
    (hperm : order.Perm (taskResultsCtx dec cancelled urls)) :
    (DecodeURLsWithContext order urls).length = urls.length ∧
    ∀ (i : Nat) (hi : i < urls.length),
      (DecodeURLsWithContext order urls)[i]? =
        some (if cancelled i then cancelledResult else dec urls[i]) := by
  constructor
  · rw [DecodeURLsWithContext, length_applyResults, List.length_replicate]
  · intro i hi
    exact applyResults_perm_enum
      (fun i u => if cancelled i then cancelledResult else dec u) urls
      _ (List.length_replicate ..) order hperm i hi

theorem c9_cancellation_witness :
    (DecodeURLsWithContext
        ((taskResultsCtx GetBase64Str cancelFirst [exampleURL, plainArticlesURL]).reverse)
        [exampleURL, plainArticlesURL]).length = 2 ∧
    (DecodeURLsWithContext
        ((taskResultsCtx GetBase64Str cancelFirst [exampleURL, plainArticlesURL]).reverse)
        [exampleURL, plainArticlesURL])[0]? = some cancelledResult :=
  ⟨(c9_cancellation_behavior GetBase64Str cancelFirst [exampleURL, plainArticlesURL]
      _ (by decide)).1,
   ((c9_cancellation_behavior GetBase64Str cancelFirst [exampleURL, plainArticlesURL]
      _ (by decide)).2 0 (by decide)).trans (by decide)⟩

/-- C10 (counterexample): the claim is false of the program.  Go's base64
decoder skips every CR and LF, and `url.Parse` percent-decodes the path, so
`/articles/AA%0A` yields the reachable token `"AA\n"` — length 3, not
`≡ 2 (mod 4)` — whose decode nevertheless succeeds (newline dropped,
`"AA=="` decodes to the single byte `0x00`). -/
theorem c10_crlf_token_counterexample :
    ("AA\n".toList : GoStr).length % 4 ≠ 2 ∧
    decodeBinaryToken "AA\n".toList = some [Char.ofNat 0] := by decide

/-- C10 (amended): count the token's length after Go's CR/LF skipping; then
the claim holds: the decoders append `"=="` unconditionally before the
padded base64url decode, so the decode step fails whenever the stripped
length is not `≡ 2 (mod 4)` — decoding can succeed only when it is.  For
tokens without CR or LF this is the original claim. -/
theorem c10_padding_forces_length (tok : GoStr)
    (h : (stripCRLF tok).length % 4 ≠ 2) : decodeBinaryToken tok = none := by
  cases hdec : b64Decode (tok ++ "==".toList) with
  | none => rw [decodeBinaryToken, hdec]
  | some bs =>
    rw [b64Decode] at hdec
    have hmod := b64DecodeRaw_length_mod4 _ bs hdec
    rw [stripCRLF, List.filter_append] at hmod
    have hpad : (("==".toList : GoStr).filter fun c => c != '\r' && c != '\n')
        = "==".toList := by decide
    rw [hpad, List.length_append] at hmod
    have h2 : ("==".toList : GoStr).length = 2 := by decide
    rw [h2] at hmod
    rw [stripCRLF] at h
    omega

theorem c10_padding_forces_length_witness :
    (stripCRLF "AAAA".toList).length % 4 ≠ 2 ∧
    decodeBinaryToken "AAAA".toList = none :=
  ⟨by decide, c10_padding_forces_length "AAAA".toList (by decide)⟩

end GNews
